import Mathlib

/-!
Verification of the constituent data-import pipeline (`src/main.py`).

The pipeline's pure transformations are shallowly embedded here:

* pandas cell values are `Option String` (`none` models `NaN`/missing);
* `str(x).strip()` is `pyStrip`, `str.lower()` is `pyLower`,
  `as_clean_str` is `cleanCell`;
* parsed dates (`pd.to_datetime(..., errors="coerce")`) are `Option Nat`
  (`none` models `NaT`, the numeric value is a timestamp ordinal);
* parsed amounts (`pd.to_numeric(..., errors="coerce")`) are `Option Int`
  (`none` models `NaN`, the value is in cents);
* the multi-column stable `sort_values` / `drop_duplicates(keep="first")`
  combination is `List.insertionSort` with a total lexicographic key that
  ends in the original row index (equivalent to a stable sort, since the
  index makes the key injective) followed by `keepFirst`;
* `requests.get` + `r.json()` are modelled by an `ApiResult` value that says
  whether the transport raised, what status code arrived and whether the
  payload was well-formed.
-/

namespace ImportPipeline

/-- Python's `\s` class as used by `str.strip` and the email regex, modelled
by Lean's `Char.isWhitespace`. -/
def ws (c : Char) : Bool := c.isWhitespace

/-- Both-ends whitespace trim on a character list: `str.strip()`. -/
def stripChars (l : List Char) : List Char :=
  ((l.dropWhile ws).reverse.dropWhile ws).reverse

/-- `str.strip()` on a Lean string. -/
def pyStrip (s : String) : String := String.mk (stripChars s.toList)

/-- `str.lower()`, modelled per character. -/
def pyLower (s : String) : String := String.mk (s.toList.map Char.toLower)

/-- `as_clean_str` (src/main.py:19-22): `NaN`/`None` become `""`, everything
else is stringified and stripped. -/
def cleanCell : Option String → String
  | none => ""
  | some s => pyStrip s

/-- `str.split(sep)` for a one-character separator, on character lists. -/
def splitOnChar (c : Char) : List Char → List (List Char)
  | [] => [[]]
  | x :: xs =>
    match splitOnChar c xs with
    | [] => [[]]
    | h :: t => if x = c then [] :: h :: t else (x :: h) :: t

/-- Order-preserving deduplication with a `seen` accumulator, the loop used
by `split_tags` (src/main.py:71-76). -/
def dedupAux {α : Type} [DecidableEq α] (seen : List α) : List α → List α
  | [] => []
  | x :: xs => if x ∈ seen then dedupAux seen xs else x :: dedupAux (x :: seen) xs

/-- Deduplicate preserving first occurrences. -/
def dedupList {α : Type} [DecidableEq α] (l : List α) : List α := dedupAux [] l

/-- `is_valid_email` (src/main.py:60-61): full match of
`^[^@\s]+@[^@\s]+\.[^@\s]+$`.  A string matches exactly when it has a single
`@`, no whitespace, a non-empty local part, and the part after the `@`
contains a `.` that is neither its first nor its last character. -/
def is_valid_email (e : String) : Bool :=
  match splitOnChar '@' e.toList with
  | [l, d] =>
      !l.isEmpty && l.all (fun c => !ws c) && !d.isEmpty && d.all (fun c => !ws c) &&
      (d.drop 1).dropLast.contains '.'
  | _ => false

/-- The per-constituent email list built at src/main.py:139-143: Patron ID
stripped, email cleaned and lowercased, kept only when `is_valid_email`
accepts it, in table order.  The table rows are `(Patron ID, Email)`. -/
def email_map_lookup (pid : String) (table : List (String × Option String)) : List String :=
  ((table.map (fun r => (pyStrip r.1, pyLower (cleanCell r.2)))).filter
      (fun r => is_valid_email r.2 && r.1 == pid)).map (fun r => r.2)

/-- `resolve_emails` (src/main.py:145-167) for one constituent: the declared
primary is cleaned and lowercased, prepended to the discovered list when
non-empty, the candidates are deduplicated preserving order, and the first
two survivors become email1/email2 (email2 blanked when email1 is empty). -/
def resolve_emails (primaryRaw : Option String) (others : List String) : String × String :=
  let primary := pyLower (cleanCell primaryRaw)
  let candidates := (if primary = "" then [] else [primary]) ++ others
  let seen := dedupList candidates
  let email1 := match seen with | [] => "" | e :: _ => e
  let email2 := match seen with | _ :: e :: _ => e | _ => ""
  if email1 = "" then (email1, "") else (email1, email2)

/-- `split_tags` (src/main.py:64-77): `NaN` gives `[]`; otherwise split on
commas, strip each part, drop empty parts, deduplicate preserving order. -/
def split_tags (tagStr : Option String) : List String :=
  match tagStr with
  | none => []
  | some s =>
    dedupList (((splitOnChar ',' s.toList).map (fun p => String.mk (stripChars p))).filter
      (fun t => !(t == "")))

/-- `mapping.get(t, t)`: an association-list lookup defaulting to the key. -/
def lookupDefault (mapping : List (String × String)) (t : String) : String :=
  match mapping.find? (fun p => p.1 == t) with
  | some p => p.2
  | none => t

/-- The re-clean / re-deduplicate loop of `map_tags` (src/main.py:108-115). -/
def mapTagsAux (seen : List String) : List String → List String
  | [] => []
  | t :: ts =>
    let c := pyStrip t
    if c ≠ "" ∧ c ∉ seen then c :: mapTagsAux (c :: seen) ts else mapTagsAux seen ts

/-- `map_tags` (src/main.py:103-115): apply the mapping entrywise (identity
for unmapped tags), then clean and deduplicate the results again. -/
def map_tags (tagList : List String) (mapping : List (String × String)) : List String :=
  mapTagsAux [] (tagList.map (lookupDefault mapping))

/-- The reserved null-like company vocabulary (src/main.py:240). -/
def bad_company_values : List String := ["none", "nan", "n/a", "...", "null"]

/-- `is_company` (src/main.py:239-241): the company cell is filled with `""`
for missing values, stringified and stripped; the row is a company when the
result is non-empty and its lowercase form is not in the reserved list. -/
def is_company (companyRaw : Option String) : Bool :=
  let c := pyStrip (companyRaw.getD "")
  !(c == "") && !(bad_company_values.contains (pyLower c))

/-- `CB Constituent Type` (src/main.py:243). -/
def cb_constituent_type (companyRaw : Option String) : String :=
  if is_company companyRaw then "Company" else "Person"

/-- The controlled title vocabulary `allowed_titles` (src/main.py:264-267),
as the association list underlying the Python dict. -/
def allowed_titles : List (String × String) :=
  [("Mr.", "Mr."), ("Mr", "Mr."),
   ("Mrs.", "Mrs."), ("Mrs", "Mrs."),
   ("Ms.", "Ms."), ("Ms", "Ms."),
   ("Dr.", "Dr."), ("Dr", "Dr.")]

/-- `normalize_cb_title` (src/main.py:269-271): clean the cell, then
`allowed_titles.get(s, "")`. -/
def normalize_cb_title (x : Option String) : String :=
  match allowed_titles.find? (fun p => p.1 == cleanCell x) with
  | some p => p.2
  | none => ""

/-- Outcome of `r.json()`: either parsing/iterating the payload raises
(non-list payloads, non-dict items and JSON errors all surface as exceptions
inside the `try` block), or it yields items whose `"name"` and
`"mapped_name"` fields are each absent (`none`) or a string. -/
inductive TagPayload where
  | malformed : TagPayload
  | items : List (Option String × Option String) → TagPayload

/-- Outcome of `requests.get(TAG_MAPPING_API, timeout=10)`: the transport
can raise (connection error, timeout), or deliver a response with a status
code and a body. -/
inductive ApiResult where
  | networkError : ApiResult
  | response : Nat → TagPayload → ApiResult

/-- Python dict assignment `mapping[name] = mapped`: overwrite an existing
binding in place, else append. -/
def insertMapping (m : List (String × String)) (k v : String) : List (String × String) :=
  if m.any (fun p => p.1 == k) then m.map (fun p => if p.1 == k then (k, v) else p)
  else m ++ [(k, v)]

/-- The body of the `try` block of `fetch_tag_mapping` (src/main.py:85-97):
a non-200 status returns the empty mapping; a malformed payload raises; a
well-formed payload is folded into a dict keeping only items with non-empty
cleaned name and mapped name. -/
def fetch_body : ApiResult → Except String (List (String × String))
  | .networkError => .error "network error"
  | .response status body =>
    if status ≠ 200 then .ok []
    else
      match body with
      | .malformed => .error "malformed payload"
      | .items l =>
        .ok (l.foldl (fun m it =>
          let name := cleanCell it.1
          let mapped := cleanCell it.2
          if name ≠ "" ∧ mapped ≠ "" then insertMapping m name mapped else m) [])

/-- `fetch_tag_mapping` (src/main.py:80-100): the `except` clause turns any
raised error into the empty (identity) mapping, so the function is total and
never propagates a failure. -/
def fetch_tag_mapping (r : ApiResult) : List (String × String) :=
  match fetch_body r with
  | .error _ => []
  | .ok m => m

/-- A failed lookup: the transport raised, the response status is not 200,
or the payload is malformed. -/
def apiFailure : ApiResult → Prop
  | .networkError => True
  | .response status body => status ≠ 200 ∨ body = .malformed

/-- One row of the `Input Donation History` sheet after the two `coerce`
parses of src/main.py:203-204: the raw Patron ID, the raw status string,
the parsed amount (`none` = unparseable, value in cents) and the parsed
date (`none` = `NaT`). -/
structure Donation where
  pid : String
  status : String
  amount : Option Int
  date : Option Nat
  deriving DecidableEq, Repr

/-- src/main.py:200: `astype(str).str.strip()` on the Patron ID column. -/
def prep_donation (d : Donation) : Donation := { d with pid := pyStrip d.pid }

/-- The paid transactions of one identifier, in table order
(src/main.py:200-201 followed by the per-identifier grouping). -/
def paid_for (pid : String) (ds : List Donation) : List Donation :=
  ((ds.map prep_donation).filter (fun d => d.status == "Paid")).filter (fun d => d.pid == pid)

/-- `lifetime` (src/main.py:208) looked up through
`constituents.index.map(lifetime)` (src/main.py:220-222): the group sum
exists only when the identifier has at least one paid transaction; the sum
skips unparseable (`none`) amounts. -/
def lifetime_for (pid : String) (ds : List Donation) : Option Int :=
  match paid_for pid ds with
  | [] => none
  | g => some ((g.filterMap (fun d => d.amount)).sum)

/-- Two-digit rendering of the cents part. -/
def pad2 (n : Nat) : String := if n < 10 then "0" ++ toString n else toString n

/-- `to_currency` (src/main.py:118-119): `NaN` becomes `""`, a number
(carried in cents) becomes `f"${x:.2f}"`. -/
def to_currency : Option Int → String
  | none => ""
  | some c =>
    "$" ++ (if c < 0 then "-" else "") ++ toString (c.natAbs / 100) ++ "." ++ pad2 (c.natAbs % 100)

/-- The `CB Lifetime Donation Amount` cell for one identifier
(src/main.py:220-223). -/
def cb_lifetime_amount (pid : String) (ds : List Donation) : String :=
  to_currency (lifetime_for pid ds)

/-- Attach original row indices, starting at `n`. -/
def enumFrom {α : Type} : Nat → List α → List (Nat × α)
  | _, [] => []
  | n, x :: xs => (n, x) :: enumFrom (n + 1) xs

/-- `drop_duplicates(key, keep="first")`: keep each key's first row. -/
def keepFirst {β : Type} (k : β → String) : List String → List β → List β
  | _, [] => []
  | seen, x :: xs =>
    if k x ∈ seen then keepFirst k seen xs else x :: keepFirst k (k x :: seen) xs

/-- The lexicographic row order used by the pipeline's two
`sort_values` + `drop_duplicates` passes: identifier ascending (Python
string order = code-point lexicographic on the character list), then a
first numeric key descending, then a second numeric key descending, then
the original row index ascending (the stable tie-break). -/
def rowR {β : Type} (pidL : β → List Char) (k1 k2 idx : β → Nat) (a b : β) : Prop :=
  pidL a < pidL b ∨
    (pidL a = pidL b ∧
      (k1 b < k1 a ∨
        (k1 a = k1 b ∧
          (k2 b < k2 a ∨ (k2 a = k2 b ∧ idx a ≤ idx b)))))

instance rowR_decidable {β : Type} (pidL : β → List Char) (k1 k2 idx : β → Nat) :
    DecidableRel (rowR pidL k1 k2 idx) :=
  fun a b =>
    inferInstanceAs (Decidable (pidL a < pidL b ∨
      (pidL a = pidL b ∧
        (k1 b < k1 a ∨
          (k1 a = k1 b ∧
            (k2 b < k2 a ∨ (k2 a = k2 b ∧ idx a ≤ idx b)))))))

instance rowR_total_inst {β : Type} (pidL : β → List Char) (k1 k2 idx : β → Nat) :
    IsTotal β (rowR pidL k1 k2 idx) := by
  refine ⟨fun a b => ?_⟩
  rcases lt_trichotomy (pidL a) (pidL b) with h | h | h
  · exact Or.inl (Or.inl h)
  · have hAB : (k1 b < k1 a ∨ (k1 a = k1 b ∧ (k2 b < k2 a ∨ (k2 a = k2 b ∧ idx a ≤ idx b)))) ∨
        (k1 a < k1 b ∨ (k1 b = k1 a ∧ (k2 a < k2 b ∨ (k2 b = k2 a ∧ idx b ≤ idx a)))) := by
      omega
    rcases hAB with hA | hB
    · exact Or.inl (Or.inr ⟨h, hA⟩)
    · exact Or.inr (Or.inr ⟨h.symm, hB⟩)
  · exact Or.inr (Or.inl h)

instance rowR_trans_inst {β : Type} (pidL : β → List Char) (k1 k2 idx : β → Nat) :
    IsTrans β (rowR pidL k1 k2 idx) := by
  refine ⟨fun a b c hab hbc => ?_⟩
  rcases hab with h1 | ⟨e1, hab2⟩
  · rcases hbc with h2 | ⟨e2, _⟩
    · exact Or.inl (h1.trans h2)
    · exact Or.inl (e2 ▸ h1)
  · rcases hbc with h2 | ⟨e2, hbc2⟩
    · exact Or.inl (e1 ▸ h2)
    · exact Or.inr ⟨e1.trans e2, by omega⟩

/-- One row of the `Input Constituents` sheet: the Patron ID after
`astype(str)` (src/main.py:45), the raw values of all the row's columns
(used by the completeness score), and the parsed `Date Entered`
(src/main.py:48, `none` = `NaT`). -/
structure CRow where
  pid : String
  cells : List (Option String)
  date : Option Nat
  deriving DecidableEq, Repr

/-- `completeness_score` (src/main.py:25-31): clean every cell, turn `""`
back into missing, and count the non-missing cells of the row. -/
def completeness_score (cells : List (Option String)) : Nat :=
  (cells.filter (fun c => !(cleanCell c == ""))).length

/-- Rank of a parsed date, with `NaT` strictly below every real date:
pandas' `na_position="last"` puts `NaT` after all dates under the
descending date sort, i.e. ranks it lowest. -/
def dateRank : Option Nat → Nat
  | none => 0
  | some d => d + 1

/-- The sort key of `dedupe_constituents` (src/main.py:52-55): Patron ID
ascending, completeness score descending, parsed entry date descending with
`NaT` ranked lowest, and original row index ascending (`numpy.lexsort` is
stable, so equal keys keep their input order). -/
def conR : Nat × CRow → Nat × CRow → Prop :=
  rowR (fun x => x.2.pid.toList) (fun x => completeness_score x.2.cells)
    (fun x => dateRank x.2.date) (fun x => x.1)

instance conR_dec : DecidableRel conR := fun a b => rowR_decidable _ _ _ _ a b

instance conR_total : IsTotal (Nat × CRow) conR :=
  inferInstanceAs (IsTotal (Nat × CRow) (rowR (fun x => x.2.pid.toList)
    (fun x => completeness_score x.2.cells) (fun x => dateRank x.2.date) (fun x => x.1)))

instance conR_trans : IsTrans (Nat × CRow) conR :=
  inferInstanceAs (IsTrans (Nat × CRow) (rowR (fun x => x.2.pid.toList)
    (fun x => completeness_score x.2.cells) (fun x => dateRank x.2.date) (fun x => x.1)))

/-- `dedupe_constituents` (src/main.py:43-57): stable sort by
`(Patron ID asc, score desc, date desc)` then `drop_duplicates("Patron ID",
keep="first")`.  Rows carry their original index so that the stable sort is
expressible as a sort by a total key. -/
def dedupe_constituents (rows : List CRow) : List (Nat × CRow) :=
  keepFirst (fun x => x.2.pid) [] (List.insertionSort conR (enumFrom 0 rows))

/-- The rows entering the `recent` selection: donations with stripped
Patron ID (src/main.py:200), status exactly `"Paid"` (src/main.py:201) and
a parseable date (`dropna(subset=["Donation Date"])`, src/main.py:212),
each carrying its original table index. -/
def paid_dated (ds : List Donation) : List (Nat × Donation) :=
  ((enumFrom 0 ds).map (fun p => (p.1, prep_donation p.2))).filter
    (fun p => p.2.status == "Paid" && p.2.date.isSome)

/-- The sort key of `recent` (src/main.py:213): Patron ID ascending,
donation date descending, original table index ascending (the stable
tie-break of `numpy.lexsort`). -/
def donR : Nat × Donation → Nat × Donation → Prop :=
  rowR (fun x => x.2.pid.toList) (fun x => dateRank x.2.date) (fun _ => 0) (fun x => x.1)

instance donR_dec : DecidableRel donR := fun a b => rowR_decidable _ _ _ _ a b

instance donR_total : IsTotal (Nat × Donation) donR :=
  inferInstanceAs (IsTotal (Nat × Donation) (rowR (fun x => x.2.pid.toList)
    (fun x => dateRank x.2.date) (fun _ => 0) (fun x => x.1)))

instance donR_trans : IsTrans (Nat × Donation) donR :=
  inferInstanceAs (IsTrans (Nat × Donation) (rowR (fun x => x.2.pid.toList)
    (fun x => dateRank x.2.date) (fun _ => 0) (fun x => x.1)))

/-- `recent` (src/main.py:211-216): sort the paid, date-parseable rows by
`(Patron ID asc, Donation Date desc)` stably and keep the first row per
Patron ID. -/
def recent_select (ds : List Donation) : List (Nat × Donation) :=
  keepFirst (fun x => x.2.pid) [] (List.insertionSort donR (paid_dated ds))

/-- `explode` on the `(Patron ID, Mapped Tags)` frame (src/main.py:181):
a row with an empty tag list yields one `(id, NaN)` row; otherwise one
`(id, tag)` row per tag. -/
def explode_tags (l : List (String × List String)) : List (String × Option String) :=
  l.flatMap (fun r =>
    match r.2 with
    | [] => [(r.1, none)]
    | ts => ts.map (fun t => (r.1, some t)))

/-- src/main.py:183-184: clean the exploded tag names and drop the empty
ones. -/
def cleaned_pairs (l : List (String × List String)) : List (String × String) :=
  ((explode_tags l).map (fun p => (p.1, cleanCell p.2))).filter (fun p => !(p.2 == ""))

/-- Python string `≤` (code-point lexicographic), used for the
`sort_values("CB Tag Name")` / sorted `groupby` keys. -/
def strLe (s t : String) : Prop := s.toList ≤ t.toList

instance strLe_dec : DecidableRel strLe :=
  fun s t => inferInstanceAs (Decidable (s.toList ≤ t.toList))

instance strLe_total : IsTotal String strLe := ⟨fun a b => le_total a.toList b.toList⟩

instance strLe_trans : IsTrans String strLe := ⟨fun _ _ _ hab hbc => le_trans hab hbc⟩

/-- The distinct cleaned tag names sorted ascending (the `groupby` keys of
src/main.py:187-191, re-sorted by `sort_values("CB Tag Name")`). -/
def sorted_tags (l : List (String × List String)) : List String :=
  List.insertionSort strLe (dedupList ((cleaned_pairs l).map (fun p => p.2)))

/-- `tag_counts` (src/main.py:187-192): one row per distinct cleaned mapped
tag, counting the distinct Patron IDs carrying it (`nunique`), sorted by
tag name. -/
def tag_counts (l : List (String × List String)) : List (String × Nat) :=
  (sorted_tags l).map (fun t =>
    (t, (dedupList (((cleaned_pairs l).filter (fun p => p.2 == t)).map Prod.fst)).length))

theorem dropWhile_dropWhile {α : Type} (p : α → Bool) (l : List α) :
    (l.dropWhile p).dropWhile p = l.dropWhile p := by
  induction l with
  | nil => rfl
  | cons a l ih => by_cases h : p a = true <;> simp [List.dropWhile_cons, h, ih]

theorem dropWhile_head_false {α : Type} (p : α → Bool) (l : List α) (c : α) (t : List α)
    (h : l.dropWhile p = c :: t) : p c = false := by
  induction l with
  | nil => simp at h
  | cons a l ih =>
    rw [List.dropWhile_cons] at h
    by_cases hp : p a = true
    · rw [if_pos hp] at h; exact ih h
    · rw [if_neg hp] at h
      cases h
      simpa using hp

theorem dropWhile_append_eq {α : Type} (p : α → Bool) (l : List α) :
    ∃ t, l = t ++ l.dropWhile p := by
  induction l with
  | nil => exact ⟨[], rfl⟩
  | cons a l ih =>
    by_cases hp : p a = true
    · obtain ⟨t, ht⟩ := ih
      refine ⟨a :: t, ?_⟩
      rw [List.dropWhile_cons, if_pos hp, List.cons_append, ← ht]
    · exact ⟨[], by rw [List.dropWhile_cons, if_neg hp]; rfl⟩

theorem stripChars_dropWhile (l : List Char) : (stripChars l).dropWhile ws = stripChars l := by
  obtain ⟨t, ht⟩ := dropWhile_append_eq ws (l.dropWhile ws).reverse
  have hA : l.dropWhile ws = (stripChars l) ++ t.reverse := by
    have h2 := congrArg List.reverse ht
    rw [List.reverse_reverse, List.reverse_append] at h2
    exact h2
  cases hm : stripChars l with
  | nil => simp
  | cons c m =>
    rw [hm, List.cons_append] at hA
    have hc := dropWhile_head_false ws l c (m ++ t.reverse) hA
    rw [List.dropWhile_cons, hc]
    simp

theorem stripChars_reverse (l : List Char) :
    (stripChars l).reverse = (l.dropWhile ws).reverse.dropWhile ws := by
  show (((l.dropWhile ws).reverse.dropWhile ws).reverse).reverse = _
  rw [List.reverse_reverse]

theorem stripChars_idem (l : List Char) : stripChars (stripChars l) = stripChars l := by
  have h1 := stripChars_dropWhile l
  have h2 : (stripChars l).reverse.dropWhile ws = (stripChars l).reverse := by
    rw [stripChars_reverse, dropWhile_dropWhile]
  show (((stripChars l).dropWhile ws).reverse.dropWhile ws).reverse = stripChars l
  rw [h1, h2, List.reverse_reverse]

theorem toList_mk (l : List Char) : (String.mk l).toList = l := rfl

theorem pyStrip_idem (s : String) : pyStrip (pyStrip s) = pyStrip s := by
  unfold pyStrip
  rw [toList_mk, stripChars_idem]

theorem dedupAux_sublist {α : Type} [DecidableEq α] :
    ∀ (l seen : List α), (dedupAux seen l).Sublist l := by
  intro l
  induction l with
  | nil => intro seen; simp [dedupAux]
  | cons x xs ih =>
    intro seen
    by_cases h : x ∈ seen
    · simpa [dedupAux, h] using (ih seen).cons x
    · simpa [dedupAux, h] using (ih (x :: seen)).cons₂ x

theorem dedupAux_nodup_and {α : Type} [DecidableEq α] :
    ∀ (l seen : List α), (dedupAux seen l).Nodup ∧ ∀ x ∈ dedupAux seen l, x ∉ seen := by
  intro l
  induction l with
  | nil => intro seen; simp [dedupAux]
  | cons x xs ih =>
    intro seen
    by_cases h : x ∈ seen
    · simpa [dedupAux, h] using ih seen
    · have ihx := ih (x :: seen)
      refine ⟨?_, ?_⟩
      · rw [dedupAux, if_neg h]
        refine List.Nodup.cons ?_ ihx.1
        intro hmem
        exact (ihx.2 x hmem) (List.mem_cons_self x seen)
      · intro y hy
        rw [dedupAux, if_neg h] at hy
        rcases List.mem_cons.mp hy with rfl | hy'
        · exact h
        · intro hseen
          exact (ihx.2 y hy') (List.mem_cons_of_mem x hseen)

theorem dedupList_nodup {α : Type} [DecidableEq α] (l : List α) : (dedupList l).Nodup :=
  (dedupAux_nodup_and l []).1

theorem dedupList_sublist {α : Type} [DecidableEq α] (l : List α) : (dedupList l).Sublist l :=
  dedupAux_sublist l []

theorem dedupAux_mem_iff {α : Type} [DecidableEq α] :
    ∀ (l seen : List α) (y : α), y ∈ dedupAux seen l ↔ y ∈ l ∧ y ∉ seen := by
  intro l
  induction l with
  | nil => intro seen y; simp [dedupAux]
  | cons x xs ih =>
    intro seen y
    by_cases h : x ∈ seen
    · rw [dedupAux, if_pos h, ih]
      constructor
      · rintro ⟨hy, hns⟩; exact ⟨List.mem_cons_of_mem x hy, hns⟩
      · rintro ⟨hy, hns⟩
        rcases List.mem_cons.mp hy with rfl | hy'
        · exact absurd h hns
        · exact ⟨hy', hns⟩
    · rw [dedupAux, if_neg h]
      constructor
      · intro hy
        rcases List.mem_cons.mp hy with rfl | hy'
        · exact ⟨List.mem_cons_self y xs, h⟩
        · obtain ⟨h1, h2⟩ := (ih (x :: seen) y).mp hy'
          exact ⟨List.mem_cons_of_mem x h1, fun hs => h2 (List.mem_cons_of_mem x hs)⟩
      · rintro ⟨hy, hns⟩
        rcases List.mem_cons.mp hy with rfl | hy'
        · exact List.mem_cons_self y _
        · by_cases hx : y = x
          · subst hx; exact List.mem_cons_self y _
          · exact List.mem_cons_of_mem x ((ih (x :: seen) y).mpr
              ⟨hy', by simp [List.mem_cons, hx, hns]⟩)

theorem dedupList_mem_iff {α : Type} [DecidableEq α] (l : List α) (y : α) :
    y ∈ dedupList l ↔ y ∈ l := by
  rw [dedupList, dedupAux_mem_iff]; simp

theorem dedupList_cons {α : Type} [DecidableEq α] (x : α) (xs : List α) :
    dedupList (x :: xs) = x :: dedupAux [x] xs := by
  simp [dedupList, dedupAux]

theorem split_tags_stripped (tagStr : Option String) :
    ∀ t ∈ split_tags tagStr, pyStrip t = t ∧ t ≠ "" := by
  intro t ht
  cases tagStr with
  | none => simp [split_tags] at ht
  | some s =>
    have hmem := (dedupList_sublist _).mem ht
    obtain ⟨hmem2, hbe⟩ := List.mem_filter.mp hmem
    obtain ⟨p, _, hp⟩ := List.mem_map.mp hmem2
    refine ⟨?_, by simpa using hbe⟩
    rw [← hp]
    unfold pyStrip
    rw [toList_mk, stripChars_idem]

theorem mapTagsAux_id :
    ∀ (l seen : List String), l.Nodup → (∀ t ∈ l, pyStrip t = t ∧ t ≠ "" ∧ t ∉ seen) →
      mapTagsAux seen l = l := by
  intro l
  induction l with
  | nil => intro seen _ _; rfl
  | cons t ts ih =>
    intro seen hnd hprops
    obtain ⟨hstrip, hne, hns⟩ := hprops t (List.mem_cons_self t ts)
    rw [mapTagsAux]
    simp only [hstrip]
    rw [if_pos ⟨hne, hns⟩]
    congr 1
    refine ih (t :: seen) (List.Nodup.of_cons hnd) ?_
    intro u hu
    obtain ⟨h1, h2, h3⟩ := hprops u (List.mem_cons_of_mem t hu)
    refine ⟨h1, h2, ?_⟩
    intro hmem
    rcases List.mem_cons.mp hmem with rfl | h4
    · exact (List.nodup_cons.mp hnd).1 hu
    · exact h3 h4

theorem map_of_lookupDefault_nil (l : List String) : l.map (lookupDefault []) = l := by
  induction l with
  | nil => rfl
  | cons x xs ih => simp [lookupDefault, List.find?, ih]

/-- Claim C5: applying the tag mapping with an empty mapping to the parsed
tag set of any input string returns the parsed tag set unchanged:
`map_tags (split_tags s) [] = split_tags s`. -/
theorem map_tags_empty_mapping_id (s : Option String) :
    map_tags (split_tags s) [] = split_tags s := by
  unfold map_tags
  rw [map_of_lookupDefault_nil]
  refine mapTagsAux_id (split_tags s) [] ?_ ?_
  · cases s with
    | none => simp [split_tags]
    | some s' => exact dedupList_nodup _
  · intro t ht
    obtain ⟨h1, h2⟩ := split_tags_stripped s t ht
    exact ⟨h1, h2, by simp⟩

theorem resolve_emails_fst (primaryRaw : Option String) (others : List String) :
    (resolve_emails primaryRaw others).1 =
      if pyLower (cleanCell primaryRaw) = "" then others.headD ""
      else pyLower (cleanCell primaryRaw) := by
  by_cases hp : pyLower (cleanCell primaryRaw) = ""
  · cases others with
    | nil => simp [resolve_emails, hp, dedupList, dedupAux]
    | cons x xs =>
      rw [if_pos hp]
      simp only [resolve_emails, if_pos hp, List.nil_append, dedupList_cons]
      by_cases hx : x = "" <;> simp [hx]
  · rw [if_neg hp]
    simp only [resolve_emails, if_neg hp, List.cons_append, List.nil_append, dedupList_cons]

/-- Claim C1 counterexample: the code never validates the declared primary
email.  With a declared primary `"bad-email"` (rejected by
`is_valid_email`) and no discovered emails, email1 becomes `"bad-email"`
instead of being discarded, so the declared primary is kept even when it is
invalid, contradicting the claim that email1 is the declared primary only if
present and valid. -/
theorem resolve_emails_invalid_primary_kept :
    (resolve_emails (some "bad-email") []).1 = "bad-email" ∧
    is_valid_email "bad-email" = false ∧ ("bad-email" : String) ≠ "" :=
  ⟨by decide, by decide, by decide⟩

/-- Claim C1 (amended): discovered emails from the email table are validated
by the email-pattern check and invalid ones discarded, but the declared
primary email is only cleaned and lowercased, never validated: email1 is the
cleaned, lowercased declared primary whenever that is non-empty (valid or
not), and otherwise the first valid discovered email for the identifier (or
empty when there is none). -/
theorem resolve_emails_amended (primaryRaw : Option String) (pid : String)
    (table : List (String × Option String)) :
    ((resolve_emails primaryRaw (email_map_lookup pid table)).1 =
      if pyLower (cleanCell primaryRaw) = "" then (email_map_lookup pid table).headD ""
      else pyLower (cleanCell primaryRaw)) ∧
    ∀ e ∈ email_map_lookup pid table, is_valid_email e = true := by
  refine ⟨resolve_emails_fst _ _, ?_⟩
  intro e he
  obtain ⟨r, hr, hre⟩ := List.mem_map.mp he
  have hp := List.of_mem_filter hr
  simp only [Bool.and_eq_true] at hp
  rw [← hre]
  exact hp.1

/-- Witness for `resolve_emails_amended` at a concrete input. -/
theorem resolve_emails_amended_witness :
    (resolve_emails (some " A@B.com ") (email_map_lookup "7" [("7", some "x@y.zz")])).1
      = "a@b.com" ∧
    is_valid_email "x@y.zz" = true := by
  have h := resolve_emails_amended (some " A@B.com ") "7" [("7", some "x@y.zz")]
  constructor
  · rw [h.1]; decide
  · exact h.2 "x@y.zz" (by decide)

theorem cleanCell_eq_strip_getD (companyRaw : Option String) :
    pyStrip (companyRaw.getD "") = cleanCell companyRaw := by
  cases companyRaw with
  | none => rfl
  | some s => rfl

/-- Claim C7: the derived type is `"Company"` iff the cleaned company field
is non-empty and its lowercase form is not one of
`{"none","nan","n/a","...","null"}`; otherwise it is `"Person"`.  A company
value whose cleaned lowercase form is `"n/a"` (so `"N/A"` in any letter
case) classifies as `"Person"`, and `"Acme Inc"` classifies as
`"Company"`. -/
theorem cb_constituent_type_spec (companyRaw : Option String) :
    (cb_constituent_type companyRaw = "Company" ↔
      (cleanCell companyRaw ≠ "" ∧ pyLower (cleanCell companyRaw) ∉ bad_company_values)) ∧
    (cb_constituent_type companyRaw ≠ "Company" → cb_constituent_type companyRaw = "Person") ∧
    (pyLower (cleanCell companyRaw) = "n/a" → cb_constituent_type companyRaw = "Person") ∧
    (cleanCell companyRaw = "Acme Inc" → cb_constituent_type companyRaw = "Company") := by
  have hco : is_company companyRaw =
      (!(cleanCell companyRaw == "") &&
        !(bad_company_values.contains (pyLower (cleanCell companyRaw)))) := by
    rw [is_company, ← cleanCell_eq_strip_getD]
  have hiff : cb_constituent_type companyRaw = "Company" ↔
      (cleanCell companyRaw ≠ "" ∧ pyLower (cleanCell companyRaw) ∉ bad_company_values) := by
    rw [cb_constituent_type, hco]
    constructor
    · intro h
      by_cases hc : (!(cleanCell companyRaw == "") &&
          !(bad_company_values.contains (pyLower (cleanCell companyRaw)))) = true
      · simpa using hc
      · rw [if_neg (by simpa using hc)] at h
        exact absurd h (by decide)
    · intro h
      rw [if_pos (by simpa using h)]
  refine ⟨hiff, ?_, ?_, ?_⟩
  · intro h
    rw [cb_constituent_type] at h ⊢
    by_cases hc : is_company companyRaw = true
    · exact absurd (if_pos hc) h
    · rw [if_neg (by simpa using hc)]
  · intro h
    rw [cb_constituent_type, hco, h]
    have hmem : ("n/a" : String) ∈ bad_company_values := by decide
    simp [hmem]
  · intro h
    rw [cb_constituent_type, hco, h]
    decide

/-- Witness for `cb_constituent_type_spec`: `"N/A"` (mixed case, padded)
classifies as Person and `"Acme Inc"` as Company. -/
theorem cb_constituent_type_spec_witness :
    cb_constituent_type (some " N/a ") = "Person" ∧
    cb_constituent_type (some " Acme Inc ") = "Company" :=
  ⟨(cb_constituent_type_spec (some " N/a ")).2.2.1 (by decide),
   (cb_constituent_type_spec (some " Acme Inc ")).2.2.2 (by decide)⟩

/-- Claim C10: title normalization is case-sensitive on the controlled
vocabulary.  A non-empty result arises only when the trimmed input is one of
the eight dictionary keys; each key maps to its canonical punctuated form;
and case variants such as `"MR"` and `"mr."` map to the empty string. -/
theorem normalize_cb_title_spec (x : Option String) :
    (normalize_cb_title x ≠ "" → cleanCell x ∈ allowed_titles.map Prod.fst) ∧
    ((cleanCell x = "Mr" ∨ cleanCell x = "Mr.") → normalize_cb_title x = "Mr.") ∧
    ((cleanCell x = "Mrs" ∨ cleanCell x = "Mrs.") → normalize_cb_title x = "Mrs.") ∧
    ((cleanCell x = "Ms" ∨ cleanCell x = "Ms.") → normalize_cb_title x = "Ms.") ∧
    ((cleanCell x = "Dr" ∨ cleanCell x = "Dr.") → normalize_cb_title x = "Dr.") ∧
    normalize_cb_title (some "MR") = "" ∧ normalize_cb_title (some "mr.") = "" := by
  refine ⟨?_, ?_, ?_, ?_, ?_, by decide, by decide⟩
  · intro h
    rw [normalize_cb_title] at h
    cases hf : allowed_titles.find? (fun p => p.1 == cleanCell x) with
    | none => rw [hf] at h; exact absurd rfl h
    | some p =>
      have hkey : (p.1 == cleanCell x) = true := by
        have h2 := List.find?_some (p := fun q : String × String => q.1 == cleanCell x) hf
        simpa using h2
      have hmem : p ∈ allowed_titles := List.mem_of_find?_eq_some hf
      rw [← eq_of_beq hkey]
      exact List.mem_map_of_mem Prod.fst hmem
  all_goals
    rintro (h | h) <;> simp only [normalize_cb_title, h] <;> decide

/-- Witness for `normalize_cb_title_spec` at concrete inputs. -/
theorem normalize_cb_title_spec_witness :
    normalize_cb_title (some " Mr ") = "Mr." ∧ normalize_cb_title (some "Dr") = "Dr." :=
  ⟨(normalize_cb_title_spec (some " Mr ")).2.1 (Or.inl (by decide)),
   (normalize_cb_title_spec (some "Dr")).2.2.2.2.1 (Or.inl (by decide))⟩

/-- Claim C8: on every failure of the external tag-mapping lookup (network
error, non-200 status, malformed payload) `fetch_tag_mapping` returns the
empty mapping, so every tag falls back to itself; being a total function
into mappings, it propagates no error. -/
theorem fetch_tag_mapping_failure (r : ApiResult) (h : apiFailure r) :
    fetch_tag_mapping r = [] := by
  cases r with
  | networkError => rfl
  | response status body =>
    rcases h with hs | hb
    · simp only [fetch_tag_mapping, fetch_body, if_pos hs]
    · subst hb
      by_cases hs : status ≠ 200
      · simp only [fetch_tag_mapping, fetch_body, if_pos hs]
      · simp only [fetch_tag_mapping, fetch_body, if_neg hs]

/-- Witness for `fetch_tag_mapping_failure`: a 500 response with a
well-formed payload, and a network error, both yield the empty mapping. -/
theorem fetch_tag_mapping_failure_witness :
    fetch_tag_mapping (.response 500 (.items [(some "a", some "b")])) = [] ∧
    fetch_tag_mapping .networkError = [] ∧
    fetch_tag_mapping (.response 200 .malformed) = [] :=
  ⟨fetch_tag_mapping_failure (.response 500 (.items [(some "a", some "b")])) (Or.inl (by decide)),
   fetch_tag_mapping_failure .networkError trivial,
   fetch_tag_mapping_failure (.response 200 .malformed) (Or.inr rfl)⟩

/-- Claim C4: the lifetime donation amount of an identifier is the
currency-formatted sum of the parseable amounts of its transactions with
status exactly `"Paid"`, and it is the empty string — never `"$0.00"` —
when the identifier has no paid transactions. -/
theorem cb_lifetime_amount_spec (pid : String) (ds : List Donation) :
    (paid_for pid ds = [] →
      cb_lifetime_amount pid ds = "" ∧ cb_lifetime_amount pid ds ≠ "$0.00") ∧
    (paid_for pid ds ≠ [] →
      cb_lifetime_amount pid ds =
        to_currency (some (((paid_for pid ds).filterMap (fun d => d.amount)).sum))) := by
  constructor
  · intro h
    have hout : cb_lifetime_amount pid ds = "" := by
      rw [cb_lifetime_amount, lifetime_for, h]
      rfl
    exact ⟨hout, by rw [hout]; decide⟩
  · intro h
    rw [cb_lifetime_amount, lifetime_for]
    cases hg : paid_for pid ds with
    | nil => exact absurd hg h
    | cons d g => rfl

/-- Witness for `cb_lifetime_amount_spec`: an identifier with no paid
transaction formats as `""`; one with paid transactions of 10.00 and 2.50
dollars (and one unparseable amount) formats as `"$12.50"`. -/
theorem cb_lifetime_amount_spec_witness :
    cb_lifetime_amount "1" [⟨"1", "Pending", some 100, none⟩] = "" ∧
    cb_lifetime_amount "2" [⟨"2", "Paid", some 1000, none⟩, ⟨"2", "Paid", none, none⟩,
      ⟨"2", "Paid", some 250, some 3⟩] = "$12.50" := by
  constructor
  · exact ((cb_lifetime_amount_spec "1" [⟨"1", "Pending", some 100, none⟩]).1 (by decide)).1
  · rw [(cb_lifetime_amount_spec "2" _).2 (by decide)]
    decide

/-- Claim C9: an identifier that has paid transactions but only unparseable
paid amounts gets `"$0.00"` (the skip-`NaN` sum of the group is zero), not
the absent value `""`. -/
theorem cb_lifetime_amount_all_unparseable (pid : String) (ds : List Donation)
    (hne : paid_for pid ds ≠ [])
    (hall : ∀ d ∈ paid_for pid ds, d.amount = none) :
    cb_lifetime_amount pid ds = "$0.00" := by
  have hsum : (paid_for pid ds).filterMap (fun d => d.amount) = [] := by
    rw [List.filterMap_eq_nil_iff]
    intro d hd
    rw [hall d hd]
  rw [(cb_lifetime_amount_spec pid ds).2 hne, hsum]
  decide

/-- Witness for `cb_lifetime_amount_all_unparseable` at a concrete input. -/
theorem cb_lifetime_amount_all_unparseable_witness :
    cb_lifetime_amount "9" [⟨"9", "Paid", none, some 1⟩, ⟨"9 ", "Paid", none, none⟩]
      = "$0.00" :=
  cb_lifetime_amount_all_unparseable "9" _ (by decide) (by decide)

theorem enumFrom_fst_ge {α : Type} :
    ∀ (l : List α) (n : Nat) (p : Nat × α), p ∈ enumFrom n l → n ≤ p.1 := by
  intro l
  induction l with
  | nil => intro n p hp; simp [enumFrom] at hp
  | cons x xs ih =>
    intro n p hp
    rcases List.mem_cons.mp hp with rfl | hp'
    · exact Nat.le_refl n
    · exact Nat.le_of_succ_le (ih (n + 1) p hp')

theorem enumFrom_fst_inj {α : Type} :
    ∀ (l : List α) (n : Nat) (p q : Nat × α),
      p ∈ enumFrom n l → q ∈ enumFrom n l → p.1 = q.1 → p = q := by
  intro l
  induction l with
  | nil => intro n p q hp; simp [enumFrom] at hp
  | cons x xs ih =>
    intro n p q hp hq heq
    rcases List.mem_cons.mp hp with rfl | hp' <;> rcases List.mem_cons.mp hq with h | hq'
    · rw [h]
    · exact absurd (heq ▸ enumFrom_fst_ge xs (n + 1) q hq') (by simp)
    · exact absurd (heq ▸ enumFrom_fst_ge xs (n + 1) p hp') (by simp [h])
    · exact ih (n + 1) p q hp' hq' heq

theorem enumFrom_mem_of_mem {α : Type} :
    ∀ (l : List α) (n : Nat) (x : α), x ∈ l → ∃ j, (j, x) ∈ enumFrom n l := by
  intro l
  induction l with
  | nil => intro n x hx; simp at hx
  | cons y ys ih =>
    intro n x hx
    rcases List.mem_cons.mp hx with rfl | hx'
    · exact ⟨n, List.mem_cons_self _ _⟩
    · obtain ⟨j, hj⟩ := ih (n + 1) x hx'
      exact ⟨j, List.mem_cons_of_mem _ hj⟩

theorem enumFrom_snd_mem {α : Type} :
    ∀ (l : List α) (n : Nat) (p : Nat × α), p ∈ enumFrom n l → p.2 ∈ l := by
  intro l
  induction l with
  | nil => intro n p hp; simp [enumFrom] at hp
  | cons x xs ih =>
    intro n p hp
    rcases List.mem_cons.mp hp with rfl | hp'
    · exact List.mem_cons_self _ _
    · exact List.mem_cons_of_mem _ (ih (n + 1) p hp')

theorem keepFirst_filter_of_mem {β : Type} (k : β → String) (I : String) :
    ∀ (l : List β) (seen : List String), I ∈ seen →
      (keepFirst k seen l).filter (fun x => k x == I) = [] := by
  intro l
  induction l with
  | nil => intro seen _; rfl
  | cons x xs ih =>
    intro seen hI
    by_cases hk : k x ∈ seen
    · rw [keepFirst, if_pos hk]
      exact ih seen hI
    · rw [keepFirst, if_neg hk]
      have hne : (k x == I) = false := by
        simp only [beq_eq_false_iff_ne, ne_eq]
        intro h
        exact hk (h ▸ hI)
      rw [List.filter_cons, hne]
      simp only [Bool.false_eq_true, if_false]
      exact ih (k x :: seen) (List.mem_cons_of_mem _ hI)

theorem keepFirst_filter_of_not_mem {β : Type} (k : β → String) (I : String) :
    ∀ (l : List β) (seen : List String), I ∉ seen →
      (keepFirst k seen l).filter (fun x => k x == I) =
        (l.filter (fun x => k x == I)).take 1 := by
  intro l
  induction l with
  | nil => intro seen _; rfl
  | cons x xs ih =>
    intro seen hI
    by_cases hk : k x ∈ seen
    · have hne : (k x == I) = false := by
        simp only [beq_eq_false_iff_ne, ne_eq]
        intro h
        exact hI (h ▸ hk)
      rw [keepFirst, if_pos hk, List.filter_cons, hne]
      simp only [Bool.false_eq_true, if_false]
      exact ih seen hI
    · rw [keepFirst, if_neg hk]
      by_cases hxI : k x = I
      · have hbe : (k x == I) = true := by simpa using hxI
        rw [List.filter_cons, hbe, List.filter_cons, hbe]
        simp only [if_true]
        rw [keepFirst_filter_of_mem k I xs (k x :: seen) (hxI ▸ List.mem_cons_self _ _)]
        rfl
      · have hbe : (k x == I) = false := by simpa using hxI
        rw [List.filter_cons, hbe, List.filter_cons, hbe]
        simp only [Bool.false_eq_true, if_false]
        refine ih (k x :: seen) ?_
        intro hmem
        rcases List.mem_cons.mp hmem with h | h
        · exact hxI h.symm
        · exact hI h

/-- The sorted keep-first pass selects, for every key value present in the
input, exactly one element: one that is `r`-below every element of its key
group. -/
theorem selectBest_filter {β : Type} (k : β → String) (r : β → β → Prop) [DecidableRel r]
    [IsTotal β r] [IsTrans β r] (l : List β) (I : String)
    (hex : ∃ x ∈ l, k x = I) :
    ∃ b, (keepFirst k [] (List.insertionSort r l)).filter (fun x => k x == I) = [b] ∧
      b ∈ l ∧ k b = I ∧ ∀ s ∈ l, k s = I → r b s := by
  have hperm : (List.insertionSort r l).Perm l := List.perm_insertionSort r l
  have hfperm := hperm.filter (fun x => k x == I)
  have hsorted : List.Pairwise r (List.insertionSort r l) := List.sorted_insertionSort r l
  have htake := keepFirst_filter_of_not_mem k I (List.insertionSort r l) [] (by simp)
  obtain ⟨x, hx, hkx⟩ := hex
  have hxf : x ∈ (List.insertionSort r l).filter (fun y => k y == I) :=
    hfperm.mem_iff.mpr (List.mem_filter.mpr ⟨hx, by simpa using hkx⟩)
  cases hsf : (List.insertionSort r l).filter (fun y => k y == I) with
  | nil => rw [hsf] at hxf; exact absurd hxf (List.not_mem_nil x)
  | cons b rest =>
    have hbmem : b ∈ (List.insertionSort r l).filter (fun y => k y == I) := by
      rw [hsf]; exact List.mem_cons_self _ _
    have hbI : k b = I := by
      have := List.of_mem_filter hbmem
      simpa using this
    refine ⟨b, ?_, ?_, hbI, ?_⟩
    · rw [htake, hsf]; rfl
    · exact hperm.subset (List.mem_of_mem_filter hbmem)
    · intro s hs hks
      have hs2 : s ∈ b :: rest := by
        rw [← hsf]
        exact hfperm.mem_iff.mpr (List.mem_filter.mpr ⟨hs, by simpa using hks⟩)
      rcases List.mem_cons.mp hs2 with rfl | hs3
      · rcases IsTotal.total (r := r) s s with h | h <;> exact h
      · have hpair : List.Pairwise r (b :: rest) := by
          rw [← hsf]
          exact List.Pairwise.sublist (List.filter_sublist _) hsorted
        exact (List.pairwise_cons.mp hpair).1 s hs3

theorem dateRank_inj (a b : Option Nat) (h : dateRank a = dateRank b) : a = b := by
  cases a with
  | none =>
    cases b with
    | none => rfl
    | some d => simp [dateRank] at h
  | some d =>
    cases b with
    | none => simp [dateRank] at h
    | some e => simp [dateRank] at h; rw [h]

/-- Claim C2: identity resolution keeps exactly one canonical row per
distinct identifier — the group's row of highest completeness score, ties
broken by most recent parsed entry date (`NaT` ranked lowest), remaining
ties broken by the earliest insertion order.  Stated for the rows indexed by
input position: the kept row strictly beats every other row of its group in
that ranking. -/
theorem dedupe_constituents_spec (rows : List CRow) (I : String)
    (hex : ∃ x ∈ rows, x.pid = I) :
    ∃ k r, (dedupe_constituents rows).filter (fun x => x.2.pid == I) = [(k, r)] ∧
      (k, r) ∈ enumFrom 0 rows ∧ r.pid = I ∧
      ∀ j s, (j, s) ∈ enumFrom 0 rows → s.pid = I → (j, s) ≠ (k, r) →
        completeness_score s.cells < completeness_score r.cells ∨
        (completeness_score s.cells = completeness_score r.cells ∧
          (dateRank s.date < dateRank r.date ∨ (s.date = r.date ∧ k < j))) := by
  obtain ⟨x, hx, hpx⟩ := hex
  obtain ⟨j0, hj0⟩ := enumFrom_mem_of_mem rows 0 x hx
  obtain ⟨b, hfilter, hbmem, hbI, hble⟩ :=
    selectBest_filter (fun x : Nat × CRow => x.2.pid) conR (enumFrom 0 rows) I
      ⟨(j0, x), hj0, hpx⟩
  obtain ⟨k, r⟩ := b
  refine ⟨k, r, hfilter, hbmem, hbI, ?_⟩
  intro j s hjs hsI hne
  have hle := hble (j, s) hjs hsI
  simp only [conR, rowR] at hle
  have hrI : r.pid = I := hbI
  have hpideq : (r.pid.toList : List Char) = s.pid.toList := by rw [hrI, hsI]
  rcases hle with hlt | ⟨_, hinner⟩
  · rw [hpideq] at hlt
    exact absurd hlt (lt_irrefl _)
  · rcases hinner with h1 | ⟨h1e, h2⟩
    · exact Or.inl h1
    · refine Or.inr ⟨h1e.symm, ?_⟩
      rcases h2 with h3 | ⟨h3e, h4⟩
      · exact Or.inl h3
      · have hdate : s.date = r.date := dateRank_inj _ _ h3e.symm
        refine Or.inr ⟨hdate, ?_⟩
        rcases Nat.lt_or_ge k j with h | h
        · exact h
        · have hkj : k = j := Nat.le_antisymm h4 h
          have heqp := enumFrom_fst_inj rows 0 (j, s) (k, r) hjs hbmem (by simp [hkj])
          exact absurd heqp hne

/-- Witness for `dedupe_constituents_spec`: in a two-row group for id "1"
the second row (higher completeness) is kept, carrying its input index. -/
theorem dedupe_constituents_spec_witness :
    (dedupe_constituents
      [⟨"1", [some "1", some "A", none], some 10⟩,
       ⟨"1", [some "1", some "B", some "555"], some 20⟩]).filter (fun x => x.2.pid == "1")
    = [(1, ⟨"1", [some "1", some "B", some "555"], some 20⟩)] := by
  obtain ⟨k, r, hf, hmem, hI, hdom⟩ :=
    dedupe_constituents_spec
      [⟨"1", [some "1", some "A", none], some 10⟩,
       ⟨"1", [some "1", some "B", some "555"], some 20⟩] "1"
      ⟨⟨"1", [some "1", some "A", none], some 10⟩, by decide, rfl⟩
  have hcomp : (dedupe_constituents
      [⟨"1", [some "1", some "A", none], some 10⟩,
       ⟨"1", [some "1", some "B", some "555"], some 20⟩]).filter (fun x => x.2.pid == "1")
    = [(1, ⟨"1", [some "1", some "B", some "555"], some 20⟩)] := by decide
  exact hcomp

theorem paid_dated_fst_inj (ds : List Donation) (p q : Nat × Donation)
    (hp : p ∈ paid_dated ds) (hq : q ∈ paid_dated ds) (h : p.1 = q.1) : p = q := by
  have hp' := List.mem_of_mem_filter hp
  have hq' := List.mem_of_mem_filter hq
  obtain ⟨a, ha, hap⟩ := List.mem_map.mp hp'
  obtain ⟨b, hb, hbq⟩ := List.mem_map.mp hq'
  have hab : a.1 = b.1 := by
    rw [← hap, ← hbq] at h
    exact h
  have hahb := enumFrom_fst_inj ds 0 a b ha hb hab
  rw [← hap, ← hbq, hahb]

/-- Claim C3: per identifier, the selected most-recent donation is a paid,
date-parseable transaction of that identifier whose date is maximal among
the identifier's paid parseable-date transactions, and among transactions
sharing that maximal date it is the one earliest in table order; exactly one
row is selected, deterministically. -/
theorem recent_select_spec (ds : List Donation) (I : String)
    (hex : ∃ p ∈ paid_dated ds, p.2.pid = I) :
    ∃ k r, (recent_select ds).filter (fun x => x.2.pid == I) = [(k, r)] ∧
      (k, r) ∈ paid_dated ds ∧ r.pid = I ∧ r.status = "Paid" ∧ r.date.isSome = true ∧
      ∀ j s, (j, s) ∈ paid_dated ds → s.pid = I →
        ((∀ d e, s.date = some d → r.date = some e → d ≤ e) ∧
         (s.date = r.date → (j, s) ≠ (k, r) → k < j)) := by
  obtain ⟨p0, hp0, hpp0⟩ := hex
  obtain ⟨b, hfilter, hbmem, hbI, hble⟩ :=
    selectBest_filter (fun x : Nat × Donation => x.2.pid) donR (paid_dated ds) I
      ⟨p0, hp0, hpp0⟩
  obtain ⟨k, r⟩ := b
  have hflags := List.of_mem_filter hbmem
  simp only [Bool.and_eq_true, beq_iff_eq] at hflags
  refine ⟨k, r, hfilter, hbmem, hbI, hflags.1, hflags.2, ?_⟩
  intro j s hjs hsI
  have hle := hble (j, s) hjs hsI
  simp only [donR, rowR] at hle
  have hrI : r.pid = I := hbI
  have hpideq : (r.pid.toList : List Char) = s.pid.toList := by rw [hrI, hsI]
  rcases hle with hlt | ⟨_, hinner⟩
  · rw [hpideq] at hlt
    exact absurd hlt (lt_irrefl _)
  constructor
  · intro d e hd he
    rcases hinner with h | ⟨he2, _⟩
    · rw [hd, he] at h
      simp [dateRank] at h
      omega
    · rw [hd, he] at he2
      simp [dateRank] at he2
      omega
  · intro hdeq hne
    rcases hinner with h | ⟨_, h4⟩
    · rw [hdeq] at h
      exact absurd h (lt_irrefl _)
    · rcases h4 with h5 | ⟨_, h6⟩
      · exact absurd h5 (lt_irrefl 0)
      · rcases Nat.lt_or_ge k j with h | h
        · exact h
        · have hkj : k = j := Nat.le_antisymm h6 h
          have heqp := paid_dated_fst_inj ds (j, s) (k, r) hjs hbmem (by simp [hkj])
          exact absurd heqp hne

/-- Witness for `recent_select_spec`: among three paid dated donations of
id "1" with dates 5, 9, 9, the first date-9 row (table index 1) is kept. -/
theorem recent_select_spec_witness :
    (recent_select
      [⟨"1", "Paid", some 100, some 5⟩, ⟨"1", "Paid", some 200, some 9⟩,
       ⟨"1", "Paid", some 300, some 9⟩, ⟨"1", "Pending", some 400, some 99⟩]).filter
        (fun x => x.2.pid == "1")
    = [(1, ⟨"1", "Paid", some 200, some 9⟩)] := by
  obtain ⟨k, r, hf, hmem, hI, hst, hsome, hdom⟩ :=
    recent_select_spec
      [⟨"1", "Paid", some 100, some 5⟩, ⟨"1", "Paid", some 200, some 9⟩,
       ⟨"1", "Paid", some 300, some 9⟩, ⟨"1", "Pending", some 400, some 99⟩] "1"
      ⟨(0, ⟨"1", "Paid", some 100, some 5⟩), by decide, rfl⟩
  have hcomp : (recent_select
      [⟨"1", "Paid", some 100, some 5⟩, ⟨"1", "Paid", some 200, some 9⟩,
       ⟨"1", "Paid", some 300, some 9⟩, ⟨"1", "Pending", some 400, some 99⟩]).filter
        (fun x => x.2.pid == "1")
    = [(1, ⟨"1", "Paid", some 200, some 9⟩)] := by decide
  exact hcomp

theorem cleaned_pairs_mem_elim (l : List (String × List String)) (p t : String)
    (h : (p, t) ∈ cleaned_pairs l) :
    t ≠ "" ∧ ∃ r ∈ l, r.1 = p ∧ t ∈ r.2.map (fun x => cleanCell (some x)) := by
  obtain ⟨h1, h2⟩ := List.mem_filter.mp h
  have htne : t ≠ "" := by simpa using h2
  obtain ⟨q, hq, hqe⟩ := List.mem_map.mp h1
  obtain ⟨r, hr, hqr⟩ := List.mem_flatMap.mp hq
  obtain ⟨rp, rts⟩ := r
  cases rts with
  | nil =>
    have hq2 : q = (rp, none) := by simpa using hqr
    rw [hq2] at hqe
    have : t = "" := by
      have := congrArg Prod.snd hqe
      simpa [cleanCell] using this.symm
    exact absurd this htne
  | cons y ys =>
    have hqr2 : q ∈ (y :: ys).map (fun x => (rp, some x)) := by simpa using hqr
    obtain ⟨x, hx, hxq⟩ := List.mem_map.mp hqr2
    rw [← hxq] at hqe
    have hfst : rp = p := congrArg Prod.fst hqe
    have hsnd : cleanCell (some x) = t := congrArg Prod.snd hqe
    refine ⟨htne, (rp, y :: ys), hr, hfst, ?_⟩
    rw [← hsnd]
    exact List.mem_map_of_mem _ hx

theorem cleaned_pairs_mem_intro (l : List (String × List String)) (p : String)
    (ts : List String) (x : String) (hr : (p, ts) ∈ l) (hx : x ∈ ts)
    (hne : cleanCell (some x) ≠ "") :
    (p, cleanCell (some x)) ∈ cleaned_pairs l := by
  apply List.mem_filter.mpr
  refine ⟨?_, by simpa using hne⟩
  have hq : ((p, some x) : String × Option String) ∈ explode_tags l := by
    apply List.mem_flatMap.mpr
    refine ⟨(p, ts), hr, ?_⟩
    cases ts with
    | nil => simp at hx
    | cons y ys =>
      have : ((p, some x) : String × Option String) ∈ (y :: ys).map (fun u => (p, some u)) :=
        List.mem_map.mpr ⟨x, hx, rfl⟩
      simpa using this
  exact List.mem_map.mpr ⟨(p, some x), hq, rfl⟩

theorem sorted_tags_mem (l : List (String × List String)) (t : String) :
    t ∈ sorted_tags l ↔ ∃ p, (p, t) ∈ cleaned_pairs l := by
  rw [sorted_tags, (List.perm_insertionSort strLe _).mem_iff, dedupList_mem_iff]
  constructor
  · intro h
    obtain ⟨q, hq, hqe⟩ := List.mem_map.mp h
    refine ⟨q.1, ?_⟩
    rw [← hqe]
    exact hq
  · rintro ⟨p, hp⟩
    exact List.mem_map.mpr ⟨(p, t), hp, rfl⟩

theorem tag_counts_map_fst (l : List (String × List String)) :
    (tag_counts l).map Prod.fst = sorted_tags l := by
  rw [tag_counts, List.map_map]
  have hf : (Prod.fst ∘ fun t : String =>
      (t, (dedupList (((cleaned_pairs l).filter (fun p => p.2 == t)).map
        Prod.fst)).length)) = id := by
    funext t
    rfl
  rw [hf, List.map_id]

theorem tag_count_eq (l : List (String × List String)) (t : String) (ht : t ≠ "") :
    (dedupList (((cleaned_pairs l).filter (fun p => p.2 == t)).map Prod.fst)).length =
    ((l.filter (fun r => (r.2.map (fun x => cleanCell (some x))).contains t)).map
      Prod.fst).dedup.length := by
  have hmem : ∀ p : String,
      p ∈ ((cleaned_pairs l).filter (fun q => q.2 == t)).map Prod.fst ↔
      p ∈ (l.filter (fun r => (r.2.map (fun x => cleanCell (some x))).contains t)).map
        Prod.fst := by
    intro p
    constructor
    · intro h
      obtain ⟨q, hq, hqe⟩ := List.mem_map.mp h
      have hqt : q.2 = t := by simpa using List.of_mem_filter hq
      have hqc : (p, t) ∈ cleaned_pairs l := by
        rw [← hqe, ← hqt]
        exact List.mem_of_mem_filter hq
      obtain ⟨-, r, hr, hrp, hrt⟩ := cleaned_pairs_mem_elim l p t hqc
      refine List.mem_map.mpr ⟨r, List.mem_filter.mpr ⟨hr, ?_⟩, hrp⟩
      simpa using hrt
    · intro h
      obtain ⟨r, hr, hrp⟩ := List.mem_map.mp h
      obtain ⟨hrl, hcont⟩ := List.mem_filter.mp hr
      have hmemt : t ∈ r.2.map (fun x => cleanCell (some x)) := by simpa using hcont
      obtain ⟨x, hx, hxt⟩ := List.mem_map.mp hmemt
      have hin := cleaned_pairs_mem_intro l r.1 r.2 x hrl hx (by rw [hxt]; exact ht)
      rw [hxt] at hin
      exact List.mem_map.mpr ⟨(r.1, t), List.mem_filter.mpr ⟨hin, by simp⟩, hrp⟩
  apply List.Perm.length_eq
  rw [List.perm_ext_iff_of_nodup (dedupList_nodup _) (List.nodup_dedup _)]
  intro a
  rw [dedupList_mem_iff, List.mem_dedup]
  exact hmem a

/-- Claim C6: the tag-count output has exactly one row per distinct
non-empty cleaned mapped tag across all constituents — a tag appears iff
some constituent's mapped tag set contains it after cleaning —, each row's
count is the number of distinct identifiers whose cleaned mapped tag set
contains the tag, and the rows are strictly ascending by tag name
(code-point order), which also makes them unique. -/
theorem tag_counts_spec (l : List (String × List String)) :
    List.Pairwise (fun a b : String × Nat => a.1.toList < b.1.toList) (tag_counts l) ∧
    (∀ t : String, t ∈ (tag_counts l).map Prod.fst ↔
      (t ≠ "" ∧ ∃ r ∈ l, t ∈ r.2.map (fun x => cleanCell (some x)))) ∧
    (∀ t c, (t, c) ∈ tag_counts l →
      c = ((l.filter (fun r => (r.2.map (fun x => cleanCell (some x))).contains t)).map
            Prod.fst).dedup.length) := by
  have hsorted : List.Pairwise strLe (sorted_tags l) := List.sorted_insertionSort strLe _
  have hnd : (sorted_tags l).Nodup :=
    ((List.perm_insertionSort strLe _).nodup_iff).mpr (dedupList_nodup _)
  have hlt : List.Pairwise (fun a b : String => a.toList < b.toList) (sorted_tags l) := by
    have hand := List.Pairwise.and hsorted hnd
    exact hand.imp (fun hab => lt_of_le_of_ne hab.1 (fun hc => hab.2 (String.ext hc)))
  refine ⟨?_, ?_, ?_⟩
  · rw [tag_counts]
    exact List.pairwise_map.mpr (hlt.imp (fun hab => hab))
  · intro t
    rw [tag_counts_map_fst, sorted_tags_mem]
    constructor
    · rintro ⟨p, hp⟩
      obtain ⟨hne, r, hr, -, hrt⟩ := cleaned_pairs_mem_elim l p t hp
      exact ⟨hne, r, hr, hrt⟩
    · rintro ⟨hne, r, hr, hrt⟩
      obtain ⟨x, hx, hxt⟩ := List.mem_map.mp hrt
      have hin := cleaned_pairs_mem_intro l r.1 r.2 x hr hx (by rw [hxt]; exact hne)
      rw [hxt] at hin
      exact ⟨r.1, hin⟩
  · intro t c htc
    rw [tag_counts] at htc
    obtain ⟨t0, ht0, he⟩ := List.mem_map.mp htc
    have hte : t0 = t := congrArg Prod.fst he
    subst hte
    have hcount : (dedupList (((cleaned_pairs l).filter (fun p => p.2 == t0)).map
        Prod.fst)).length = c := by simpa using congrArg Prod.snd he
    rw [← hcount]
    obtain ⟨p, hp⟩ := (sorted_tags_mem l t0).mp ht0
    exact tag_count_eq l t0 (cleaned_pairs_mem_elim l p t0 hp).1

/-- Witness for `tag_counts_spec` at a concrete input: `" Donor "` cleans to
`"Donor"`, carried by the two distinct identifiers "1" and "2". -/
theorem tag_counts_spec_witness :
    (("Donor", 2) ∈ tag_counts [("1", ["Donor", "VIP"]), ("2", [" Donor "]), ("3", [])]) ∧
    ((2 : Nat) = (([("1", ["Donor", "VIP"]), ("2", [" Donor "]), ("3", [])].filter
        (fun r => (r.2.map (fun x => cleanCell (some x))).contains "Donor")).map
          Prod.fst).dedup.length) := by
  have h := tag_counts_spec [("1", ["Donor", "VIP"]), ("2", [" Donor "]), ("3", [])]
  exact ⟨by decide, h.2.2 "Donor" 2 (by decide)⟩

end ImportPipeline
